import Mathlib

/-!
Verification of the GCS (Golomb-coded set) filter core of this repository,
src/node_modules/golomb/lib/golomb.js, as a shallow embedding in Lean.

Modelling conventions:
- byte strings (node Buffers) are List Nat, one entry per byte;
- 64-bit integers (the n64 U64 class) are Nat with an explicit reduction
  mod 2^64 at every operation that can overflow or wrap;
- fallible operations (bsert assertion failures, bufio parse errors, the
  caught EOF exception of readU64) are Option;
- the keyed 64-bit SipHash-2-4 of the external bsip package is kept
  abstract: definitions and theorems are parametric in a raw hash function
  sip : List Nat -> List Nat -> Nat taking (data, key); its output is
  reduced mod 2^64 before the multiply-and-shift range reduction, which is
  modelled concretely following section 4.2 of the spec;
- the double-SHA256 of the external bcrypto package (hash256.digest and
  hash256.root) is likewise an abstract parameter dsha.
golomb/lib/writer.js and golomb/lib/reader.js (the BitStream component) are
repository files absent from src/, so they are modelled from the spec,
section 4.1: MSB-first bit order within each byte, zero padding of the last
partial byte on render, and an end-of-stream condition (none) when a read
runs past the end of the buffer.
-/

/-- Size of the 64-bit integer domain of the n64 U64 values. -/
def U64SIZE : Nat := 2 ^ 64

/-- One insertion step of the buffer-map BufferSet: content-based
deduplication, first occurrence wins, insertion order kept. -/
def bsetAdd (acc : List (List Nat)) (x : List Nat) : List (List Nat) :=
  if x ∈ acc then acc else acc ++ [x]

/-- The buffer-map BufferSet built from a list of byte strings, as an
insertion-ordered list of the distinct byte strings. -/
def bufferSet (l : List (List Nat)) : List (List Nat) :=
  l.foldl bsetAdd []

/-- Modelled from the spec: sipmod of the external bsip package (section 4.2
of the spec).  The keyed 64-bit SipHash output sip(data, key) is abstract;
the multiply-and-shift fast range reduction into [0, m) is concrete:
the 64-bit hash times m, keeping the high 64 bits of the 128-bit product. -/
def sipmod64 (sip : List Nat → List Nat → Nat) (data key : List Nat) (m : Nat) : Nat :=
  sip data key % U64SIZE * m / U64SIZE

/-- Modelled from the spec: the bits of one byte of the BitStream buffer,
MSB-first (section 4.1 of the spec; golomb/lib/reader.js and writer.js are
not under src/). -/
def byteToBits (b : Nat) : List Bool :=
  [b.testBit 7, b.testBit 6, b.testBit 5, b.testBit 4,
   b.testBit 3, b.testBit 2, b.testBit 1, b.testBit 0]

/-- Modelled from the spec: the bit sequence a BitStream reader traverses
over a byte buffer (section 4.1 of the spec). -/
def bitsOfBytes (bs : List Nat) : List Bool :=
  bs.flatMap byteToBits

/-- Value of a list of at most 8 bits read MSB-first, used to pack one byte. -/
def bitsToByte (l : List Bool) : Nat :=
  l.foldl (fun n b => 2 * n + (if b then 1 else 0)) 0

/-- Modelled from the spec: render() of the BitStream writer packs the
accumulated bits into bytes MSB-first, eight at a time, and zero-pads the
last partial byte (section 4.1 of the spec). -/
def packBits : List Bool → List Nat
  | [] => []
  | b0 :: b1 :: b2 :: b3 :: b4 :: b5 :: b6 :: b7 :: rest =>
    bitsToByte [b0, b1, b2, b3, b4, b5, b6, b7] :: packBits rest
  | l => [bitsToByte (l ++ List.replicate (8 - l.length) false)]

/-- Modelled from the spec: readBits of the BitStream reader, consuming
width bits MSB-first into an accumulator; running past the end of the
buffer is the end-of-stream condition, modelled as none (section 4.1). -/
def readBitsAcc (acc : Nat) : Nat → List Bool → Option (Nat × List Bool)
  | 0, bits => some (acc, bits)
  | _ + 1, [] => none
  | w + 1, b :: bits => readBitsAcc (2 * acc + (if b then 1 else 0)) w bits

/-- Modelled from the spec: the unary scan of Golomb._readU64, reading bits
one at a time while they are 1 and consuming the terminating 0 bit; running
past the end of the buffer is the end-of-stream condition (none). -/
def readUnary : List Bool → Option (Nat × List Bool)
  | [] => none
  | false :: bits => some (0, bits)
  | true :: bits => (readUnary bits).map (fun qr => (qr.1 + 1, qr.2))

/-- Number of leading 1 bits of a bit stream (used to state when a Rice
decode exhausts the stream). -/
def leadingOnes : List Bool → Nat
  | true :: r => leadingOnes r + 1
  | _ => 0

/-- Golomb.readU64 / Golomb._readU64 from golomb.js: Rice-decode one value
relative to parameter p (unary quotient, then p remainder bits), rebuilding
the value as (quotient shifted left by p) or-ed with the remainder, with the
U64 wrap-arounds of the n64 operations made explicit.  The EOF exception
caught by readU64 is modelled as none. -/
def Golomb.readU64 (p : Nat) (bits : List Bool) : Option (Nat × List Bool) :=
  match readUnary bits with
  | none => none
  | some qr =>
    match readBitsAcc 0 p qr.2 with
    | none => none
    | some rr => some ((((qr.1 % U64SIZE) <<< p) % U64SIZE) ||| rr.1, rr.2)

theorem readBitsAcc_length (w : Nat) (acc : Nat) (bits : List Bool)
    (vr : Nat × List Bool) (h : readBitsAcc acc w bits = some vr) :
    vr.2.length ≤ bits.length := by
  induction w generalizing acc bits with
  | zero =>
    simp only [readBitsAcc, Option.some.injEq] at h
    subst h
    exact Nat.le_refl _
  | succ w ih =>
    cases bits with
    | nil => simp [readBitsAcc] at h
    | cons b rest =>
      simp only [readBitsAcc] at h
      have := ih _ _ h
      simp only [List.length_cons]
      omega

theorem readUnary_length (bits : List Bool) (qr : Nat × List Bool)
    (h : readUnary bits = some qr) : qr.2.length < bits.length := by
  induction bits generalizing qr with
  | nil => simp [readUnary] at h
  | cons b rest ih =>
    cases b with
    | false =>
      simp only [readUnary, Option.some.injEq] at h
      subst h
      simp
    | true =>
      simp only [readUnary, Option.map_eq_some'] at h
      obtain ⟨qr0, hq, hqr⟩ := h
      have := ih qr0 hq
      subst hqr
      simp only [List.length_cons]
      omega

theorem Golomb.readU64_length {p : Nat} {bits : List Bool} {vr : Nat × List Bool}
    (h : Golomb.readU64 p bits = some vr) : vr.2.length < bits.length := by
  unfold Golomb.readU64 at h
  split at h
  · exact absurd h (by simp)
  · rename_i qr hu
    split at h
    · exact absurd h (by simp)
    · rename_i rr hb
      simp only [Option.some.injEq] at h
      have h1 := readUnary_length bits qr hu
      have h2 := readBitsAcc_length p 0 qr.2 rr hb
      have hr2 : vr.2 = rr.2 := by rw [← h]
      rw [hr2]
      omega

/-- The logical Filter of the data model: item count n, precision p, derived
modulus m, and the bit-packed data buffer. -/
structure Golomb where
  n : Nat
  p : Nat
  m : Nat
  data : List Nat
deriving DecidableEq

/-- Loop of Golomb.match from golomb.js: while last < term, Rice-decode the
next delta, add it to the running value (U64 wrap explicit), return true on
equality with term, false on end-of-stream or once the running value passes
term. -/
def Golomb.matchGo (p term last : Nat) (bits : List Bool) : Bool :=
  if last < term then
    match hr : Golomb.readU64 p bits with
    | none => false
    | some vr =>
      if (vr.1 + last) % U64SIZE = term then true
      else Golomb.matchGo p term ((vr.1 + last) % U64SIZE) vr.2
  else false
termination_by bits.length
decreasing_by exact Golomb.readU64_length hr

/-- Golomb.match from golomb.js (match is a Lean keyword, hence the name):
single-item membership query against the filter data under the given key. -/
def Golomb.matches (sip : List Nat → List Nat → Nat) (g : Golomb)
    (key target : List Nat) : Bool :=
  Golomb.matchGo g.p (sipmod64 sip target key g.m) 0 (bitsOfBytes g.data)

/-- Loop of Golomb.matchAny from golomb.js: merge the sorted target hashes
(current head last2, remaining rest) against the sequentially decoded
cumulative filter values (running value last1); equality succeeds, a
passed-over target advances the cursor, end-of-stream or cursor exhaustion
fails. -/
def Golomb.matchAnyGo (p last1 last2 : Nat) (rest : List Nat) (bits : List Bool) : Bool :=
  if last1 = last2 then true
  else if last2 < last1 then
    match rest with
    | [] => false
    | x :: rs => Golomb.matchAnyGo p last1 x rs bits
  else
    match hr : Golomb.readU64 p bits with
    | none => false
    | some vr => Golomb.matchAnyGo p ((last1 + vr.1) % U64SIZE) last2 rest vr.2
termination_by (bits.length, rest.length)
decreasing_by
  · apply Prod.Lex.right
    simp
  · exact Prod.Lex.left _ _ (Golomb.readU64_length hr)

/-- Golomb.matchAny from golomb.js: batch membership query.  The BufferSet
deduplication of the targets, the assertion that the set is non-empty
(modelled as none), the hashing, and the ascending sort, followed by the
merge loop. -/
def Golomb.matchAny (sip : List Nat → List Nat → Nat) (g : Golomb)
    (key : List Nat) (targets : List (List Nat)) : Option Bool :=
  match List.insertionSort (· ≤ ·)
      ((bufferSet targets).map (fun t => sipmod64 sip t key g.m)) with
  | [] => none
  | v :: vs => some (Golomb.matchAnyGo g.p 0 v vs (bitsOfBytes g.data))

/-- U64 subtraction of n64 (wrapping), used by fromItems for the deltas. -/
def u64sub (a b : Nat) : Nat :=
  (a + (U64SIZE - b % U64SIZE)) % U64SIZE

/-- Fixed-width bit field of the low w bits of v, MSB-first, as written by
writeBits64 (modelled from the spec, section 4.1). -/
def bitsOfWidth : Nat → Nat → List Bool
  | 0, _ => []
  | w + 1, v => v.testBit w :: bitsOfWidth w v

/-- The Rice code emitted for one delta d by the encoding loop of
Golomb.fromItems: rem is the low p bits of d (imaskn), the quotient
(d - rem) >>> p is written in unary (that many 1 bits, then a 0 bit),
followed by the p remainder bits. -/
def riceEncodeCode (p d : Nat) : List Bool :=
  List.replicate ((d - (d &&& (2 ^ p - 1))) >>> p) true ++
    false :: bitsOfWidth p (d &&& (2 ^ p - 1))

/-- The encoding loop of Golomb.fromItems over the sorted hash values:
successive deltas (U64 subtraction) Rice-encoded into one bit stream. -/
def encodeDeltasCode (p : Nat) : Nat → List Nat → List Bool
  | _, [] => []
  | last, h :: rest => riceEncodeCode p (u64sub h last) ++ encodeDeltasCode p h rest

/-- Golomb.fromItems from golomb.js: validate P, key and item-set size
(assertion failures modelled as none), deduplicate the items (BufferSet),
derive n and m, hash every item, sort ascending, Rice-encode the deltas and
render the bit stream. -/
def Golomb.fromItems (sip : List Nat → List Nat → Nat) (P : Nat) (key : List Nat)
    (items : List (List Nat)) : Option Golomb :=
  if P ≤ 32 ∧ key.length = 16 ∧ (bufferSet items).length ≤ 4294967295 then
    some { n := (bufferSet items).length
           p := P
           m := 784931 * (bufferSet items).length % U64SIZE
           data := packBits (encodeDeltasCode P 0 (List.insertionSort (· ≤ ·)
             ((bufferSet items).map (fun it =>
               sipmod64 sip it key (784931 * (bufferSet items).length % U64SIZE))))) }
  else none

/-- Modelled from bufio: writeVarint, the Bitcoin-style variable-length
integer (little-endian payloads). -/
def writeVarint (n : Nat) : List Nat :=
  if n < 253 then [n]
  else if n ≤ 65535 then [253, n % 256, n / 256 % 256]
  else if n ≤ 4294967295 then
    [254, n % 256, n / 256 % 256, n / 65536 % 256, n / 16777216 % 256]
  else
    [255, n % 256, n / 256 % 256, n / 65536 % 256, n / 16777216 % 256,
     n / 4294967296 % 256, n / 1099511627776 % 256, n / 281474976710656 % 256,
     n / 72057594037927936 % 256]

/-- Modelled from bufio: readVarint, with the non-canonical-encoding and
truncated-buffer errors modelled as none. -/
def readVarint : List Nat → Option Nat
  | [] => none
  | b :: rest =>
    if b = 255 then
      match rest with
      | b0 :: b1 :: b2 :: b3 :: b4 :: b5 :: b6 :: b7 :: _ =>
        let v := b0 + 256 * b1 + 65536 * b2 + 16777216 * b3 + 4294967296 * b4 +
          1099511627776 * b5 + 281474976710656 * b6 + 72057594037927936 * b7
        if 4294967295 < v then some v else none
      | _ => none
    else if b = 254 then
      match rest with
      | b0 :: b1 :: b2 :: b3 :: _ =>
        let v := b0 + 256 * b1 + 65536 * b2 + 16777216 * b3
        if 65535 < v then some v else none
      | _ => none
    else if b = 253 then
      match rest with
      | b0 :: b1 :: _ =>
        let v := b0 + 256 * b1
        if 252 < v then some v else none
      | _ => none
    else some b

/-- Golomb.toNBytes from golomb.js: varint(n) followed by the data buffer. -/
def Golomb.toNBytes (g : Golomb) : List Nat :=
  writeVarint g.n ++ g.data

/-- Golomb.toPBytes from golomb.js: a single byte p followed by the data. -/
def Golomb.toPBytes (g : Golomb) : List Nat :=
  g.p :: g.data

/-- Golomb.toNPBytes from golomb.js: n as 4 big-endian bytes, one byte p,
then the data. -/
def Golomb.toNPBytes (g : Golomb) : List Nat :=
  g.n / 16777216 % 256 :: g.n / 65536 % 256 :: g.n / 256 % 256 :: g.n % 256 ::
    g.p :: g.data

/-- Golomb.fromBytes from golomb.js: adopt N, P and the data buffer,
recomputing m; the assertion 0 <= P <= 32 is modelled as none. -/
def Golomb.fromBytes (N P : Nat) (data : List Nat) : Option Golomb :=
  if P ≤ 32 then
    some { n := N, p := P, m := 784931 * N % U64SIZE, data := data }
  else none

/-- Golomb.fromNBytes from golomb.js: read a varint N from the front of the
buffer, then hand data.slice(1) to fromBytes (the source slices exactly one
byte regardless of the width of the varint just read). -/
def Golomb.fromNBytes (P : Nat) (data : List Nat) : Option Golomb :=
  (readVarint data).bind (fun N => Golomb.fromBytes N P (data.drop 1))

/-- Golomb.fromPBytes from golomb.js: one byte P, then the data; a buffer
shorter than 1 byte is rejected (none). -/
def Golomb.fromPBytes (N : Nat) (data : List Nat) : Option Golomb :=
  match data with
  | [] => none
  | b :: rest => Golomb.fromBytes N b rest

/-- Golomb.fromNPBytes from golomb.js: 4 big-endian bytes N, one byte P,
then the data; a buffer shorter than 5 bytes is rejected (none). -/
def Golomb.fromNPBytes (data : List Nat) : Option Golomb :=
  match data with
  | b0 :: b1 :: b2 :: b3 :: bp :: rest =>
    Golomb.fromBytes (16777216 * b0 + 65536 * b1 + 256 * b2 + b3) bp rest
  | _ => none

/-- Golomb.toRaw from golomb.js: the varint-N serialization, with the
assertion p = 19 modelled as none. -/
def Golomb.toRaw (g : Golomb) : Option (List Nat) :=
  if g.p = 19 then some (Golomb.toNBytes g) else none

/-- Golomb.fromRaw from golomb.js: fromNBytes with the canonical P = 19. -/
def Golomb.fromRaw (data : List Nat) : Option Golomb :=
  Golomb.fromNBytes 19 data

/-- Golomb.hash from golomb.js: double-SHA256 (abstract parameter dsha,
hash256.digest of the external bcrypto package) of the varint-N
serialization. -/
def Golomb.hash (dsha : List Nat → List Nat) (g : Golomb) : List Nat :=
  dsha (Golomb.toNBytes g)

/-- Golomb.header from golomb.js: hash256.root of (hash, prev), that is the
double-SHA256 of the concatenation of the filter hash and prev. -/
def Golomb.header (dsha : List Nat → List Nat) (g : Golomb) (prev : List Nat) : List Nat :=
  dsha (Golomb.hash dsha g ++ prev)

/-- Rice code of one value exactly as the spec words it, section 4.3:
quotient v >>> P in unary (that many 1 bits then a 0 bit), then the low P
bits of v as a fixed-width field. -/
def riceEncodeSpec (p v : Nat) : List Bool :=
  List.replicate (v >>> p) true ++ false :: bitsOfWidth p v

/-- Delta sequence encoder exactly as the spec words it, section 4.4:
delta_0 = h_0, delta_i = h_i - h_(i-1), each Rice-encoded with parameter P
into one contiguous bit stream. -/
def golombSpecBits (p : Nat) : Nat → List Nat → List Bool
  | _, [] => []
  | prev, h :: rest => riceEncodeSpec p (h - prev) ++ golombSpecBits p h rest

/-- Cumulative values produced by sequentially Rice-decoding a bit stream
until end-of-stream, starting from a running value last. -/
def Golomb.decodeCums (p last : Nat) (bits : List Bool) : List Nat :=
  match hr : Golomb.readU64 p bits with
  | none => []
  | some vr =>
    ((vr.1 + last) % U64SIZE) :: Golomb.decodeCums p ((vr.1 + last) % U64SIZE) vr.2
termination_by bits.length
decreasing_by exact Golomb.readU64_length hr

/-- Scan of the single-item matching loop over an already-decoded cumulative
value list: continue while the running value is below term, succeed on
equality. -/
def streamHit (term : Nat) : Nat → List Nat → Bool
  | _, [] => false
  | last, c :: cs =>
    if last < term then (if c = term then true else streamHit term c cs) else false

/-- Hit test for one target from an intermediate state of the merge loop:
the target is found if the running value already equals it, or if the scan
of the remaining cumulative values reaches it. -/
def localHit (term last : Nat) (cums : List Nat) : Bool :=
  if last = term then true
  else if last < term then streamHit term last cums
  else false

/-- A raw hash function that always returns 0 (the smallest 64-bit value);
under it every reduced hash is 0. -/
def sip0 : List Nat → List Nat → Nat := fun _ _ => 0

/-- A raw hash function that always returns 2^64 - 1 (the largest 64-bit
value); under it every reduced hash is m - 1. -/
def sipTop : List Nat → List Nat → Nat := fun _ _ => U64SIZE - 1

/-- A fixed all-zero 16-byte key. -/
def key16 : List Nat := List.replicate 16 0

/-! ### BufferSet lemmas -/

theorem mem_foldl_bsetAdd (l : List (List Nat)) :
    ∀ (acc : List (List Nat)) (x : List Nat),
      x ∈ l.foldl bsetAdd acc ↔ x ∈ acc ∨ x ∈ l := by
  induction l with
  | nil => intro acc x; simp
  | cons y ys ih =>
    intro acc x
    simp only [List.foldl_cons, ih, bsetAdd]
    by_cases hy : y ∈ acc
    · simp only [if_pos hy, List.mem_cons]
      constructor
      · rintro (h | h)
        · exact Or.inl h
        · exact Or.inr (Or.inr h)
      · rintro (h | h | h)
        · exact Or.inl h
        · exact Or.inl (h ▸ hy)
        · exact Or.inr h
    · simp only [if_neg hy, List.mem_append, List.mem_singleton, List.mem_cons]
      tauto

theorem nodup_foldl_bsetAdd (l : List (List Nat)) :
    ∀ (acc : List (List Nat)), acc.Nodup → (l.foldl bsetAdd acc).Nodup := by
  induction l with
  | nil => intro acc h; simpa using h
  | cons y ys ih =>
    intro acc h
    simp only [List.foldl_cons]
    apply ih
    unfold bsetAdd
    by_cases hy : y ∈ acc
    · simpa [if_pos hy] using h
    · rw [if_neg hy]
      simpa [List.nodup_append] using ⟨h, hy⟩

theorem mem_bufferSet {l : List (List Nat)} {x : List Nat} :
    x ∈ bufferSet l ↔ x ∈ l := by
  unfold bufferSet
  rw [mem_foldl_bsetAdd]
  simp

theorem bufferSet_nodup (l : List (List Nat)) : (bufferSet l).Nodup :=
  nodup_foldl_bsetAdd l [] List.nodup_nil

theorem foldl_bsetAdd_of_nodup (l : List (List Nat)) :
    ∀ (acc : List (List Nat)), l.Nodup → (∀ x ∈ l, x ∉ acc) →
      l.foldl bsetAdd acc = acc ++ l := by
  induction l with
  | nil => intro acc _ _; simp
  | cons y ys ih =>
    intro acc hnd hdisj
    simp only [List.foldl_cons]
    have hy : y ∉ acc := hdisj y (List.mem_cons_self y ys)
    rw [show bsetAdd acc y = acc ++ [y] from if_neg hy]
    rw [ih (acc ++ [y]) (List.Nodup.of_cons hnd)]
    · simp
    · intro x hx
      simp only [List.mem_append, List.mem_singleton]
      rintro (h | rfl)
      · exact hdisj x (List.mem_cons_of_mem y hx) h
      · exact (List.nodup_cons.mp hnd).1 hx

theorem bufferSet_of_nodup {l : List (List Nat)} (h : l.Nodup) : bufferSet l = l := by
  unfold bufferSet
  rw [foldl_bsetAdd_of_nodup l [] h (by simp)]
  simp

theorem bufferSet_idem (l : List (List Nat)) : bufferSet (bufferSet l) = bufferSet l :=
  bufferSet_of_nodup (bufferSet_nodup l)

theorem bufferSet_length (l : List (List Nat)) :
    (bufferSet l).length = l.toFinset.card := by
  have h1 : (bufferSet l).toFinset = l.toFinset := by
    apply Finset.ext
    intro a
    simp [List.mem_toFinset, mem_bufferSet]
  have h2 := List.toFinset_card_of_nodup (bufferSet_nodup l)
  rw [← h2, h1]

/-! ### Bit packing lemmas -/

theorem byteToBits_bitsToByte (c : List Bool) (h : c.length = 8) :
    byteToBits (bitsToByte c) = c := by
  match c, h with
  | [a, b, c, d, e, f, g, i], _ =>
    revert a b c d e f g i
    decide

theorem bitsOfBytes_cons (b : Nat) (bs : List Nat) :
    bitsOfBytes (b :: bs) = byteToBits b ++ bitsOfBytes bs := by
  simp [bitsOfBytes]

theorem bitsOfBytes_packBits (l : List Bool) :
    bitsOfBytes (packBits l) = l ++ List.replicate ((8 - l.length % 8) % 8) false := by
  induction l using packBits.induct with
  | case1 => simp [packBits, bitsOfBytes]
  | case2 b0 b1 b2 b3 b4 b5 b6 b7 rest ih =>
    rw [packBits, bitsOfBytes_cons, byteToBits_bitsToByte _ (by rfl), ih]
    have h2 : (8 - (b0 :: b1 :: b2 :: b3 :: b4 :: b5 :: b6 :: b7 :: rest).length % 8) % 8 =
        (8 - rest.length % 8) % 8 := by
      simp only [List.length_cons]
      omega
    rw [h2]
    simp
  | case3 l h1 h2 =>
    match l, h1, h2 with
    | [], h1, _ => exact (h1 rfl).elim
    | b0 :: b1 :: b2 :: b3 :: b4 :: b5 :: b6 :: b7 :: rest, _, h2 =>
      exact (h2 b0 b1 b2 b3 b4 b5 b6 b7 rest rfl).elim
    | [b0], _, _ =>
      rw [show packBits [b0] = [bitsToByte ([b0] ++ List.replicate 7 false)] from rfl]
      rw [bitsOfBytes_cons, byteToBits_bitsToByte _ (by rfl)]
      simp [bitsOfBytes]
    | [b0, b1], _, _ =>
      rw [show packBits [b0, b1] = [bitsToByte ([b0, b1] ++ List.replicate 6 false)] from rfl]
      rw [bitsOfBytes_cons, byteToBits_bitsToByte _ (by rfl)]
      simp [bitsOfBytes]
    | [b0, b1, b2], _, _ =>
      rw [show packBits [b0, b1, b2] =
        [bitsToByte ([b0, b1, b2] ++ List.replicate 5 false)] from rfl]
      rw [bitsOfBytes_cons, byteToBits_bitsToByte _ (by rfl)]
      simp [bitsOfBytes]
    | [b0, b1, b2, b3], _, _ =>
      rw [show packBits [b0, b1, b2, b3] =
        [bitsToByte ([b0, b1, b2, b3] ++ List.replicate 4 false)] from rfl]
      rw [bitsOfBytes_cons, byteToBits_bitsToByte _ (by rfl)]
      simp [bitsOfBytes]
    | [b0, b1, b2, b3, b4], _, _ =>
      rw [show packBits [b0, b1, b2, b3, b4] =
        [bitsToByte ([b0, b1, b2, b3, b4] ++ List.replicate 3 false)] from rfl]
      rw [bitsOfBytes_cons, byteToBits_bitsToByte _ (by rfl)]
      simp [bitsOfBytes]
    | [b0, b1, b2, b3, b4, b5], _, _ =>
      rw [show packBits [b0, b1, b2, b3, b4, b5] =
        [bitsToByte ([b0, b1, b2, b3, b4, b5] ++ List.replicate 2 false)] from rfl]
      rw [bitsOfBytes_cons, byteToBits_bitsToByte _ (by rfl)]
      simp [bitsOfBytes]
    | [b0, b1, b2, b3, b4, b5, b6], _, _ =>
      rw [show packBits [b0, b1, b2, b3, b4, b5, b6] =
        [bitsToByte ([b0, b1, b2, b3, b4, b5, b6] ++ List.replicate 1 false)] from rfl]
      rw [bitsOfBytes_cons, byteToBits_bitsToByte _ (by rfl)]
      simp [bitsOfBytes]

/-! ### Rice codec lemmas -/

theorem U64SIZE_eq : U64SIZE = 18446744073709551616 := by norm_num [U64SIZE]

theorem U64SIZE_pos : 0 < U64SIZE := by rw [U64SIZE_eq]; omega

theorem readBitsAcc_bitsOfWidth :
    ∀ (w acc v : Nat) (rest : List Bool),
      readBitsAcc acc w (bitsOfWidth w v ++ rest) = some (acc * 2 ^ w + v % 2 ^ w, rest) := by
  intro w
  induction w with
  | zero => intro acc v rest; simp [bitsOfWidth, readBitsAcc, Nat.mod_one]
  | succ w ih =>
    intro acc v rest
    simp only [bitsOfWidth, List.cons_append, readBitsAcc]
    rw [List.append_eq, ih]
    congr 2
    rw [Nat.mod_pow_succ]
    cases hbit : v.testBit w with
    | false =>
      have ht := Nat.testBit_to_div_mod (x := v) (i := w)
      rw [hbit] at ht
      have h1 : v / 2 ^ w % 2 = 0 := by
        have h2 := of_decide_eq_false ht.symm
        omega
      rw [h1]
      simp
      ring
    | true =>
      have ht := Nat.testBit_to_div_mod (x := v) (i := w)
      rw [hbit] at ht
      have h1 : v / 2 ^ w % 2 = 1 := of_decide_eq_true ht.symm
      rw [h1]
      simp
      ring

theorem readUnary_replicate :
    ∀ (q : Nat) (rest : List Bool),
      readUnary (List.replicate q true ++ false :: rest) = some (q, rest) := by
  intro q
  induction q with
  | zero => intro rest; simp [readUnary]
  | succ q ih =>
    intro rest
    rw [List.replicate_succ, List.cons_append]
    simp only [readUnary, ih, Option.map_some']

theorem bitsOfWidth_mod :
    ∀ (w p v : Nat), w ≤ p → bitsOfWidth w (v % 2 ^ p) = bitsOfWidth w v := by
  intro w
  induction w with
  | zero => intro p v _; rfl
  | succ w ih =>
    intro p v h
    simp only [bitsOfWidth]
    rw [ih p v (by omega)]
    congr 1
    rw [Nat.testBit_mod_two_pow]
    simp [show w < p by omega]

theorem u64sub_eq {a b : Nat} (hba : b ≤ a) (ha : a < U64SIZE) : u64sub a b = a - b := by
  unfold u64sub
  rw [U64SIZE_eq] at *
  omega

theorem Golomb.readU64_eq_of (p : Nat) (bits : List Bool) (qr rr : Nat × List Bool)
    (hu : readUnary bits = some qr) (hb : readBitsAcc 0 p qr.2 = some rr) :
    Golomb.readU64 p bits = some ((((qr.1 % U64SIZE) <<< p) % U64SIZE) ||| rr.1, rr.2) := by
  simp only [Golomb.readU64, hu, hb]

theorem sub_mod_two_pow (v p : Nat) : v - v % 2 ^ p = 2 ^ p * (v / 2 ^ p) := by
  have h := Nat.div_add_mod v (2 ^ p)
  omega

theorem readU64_riceEncodeCode (p v : Nat) (rest : List Bool) (hv : v < U64SIZE) :
    Golomb.readU64 p (riceEncodeCode p v ++ rest) = some (v, rest) := by
  have hrem : v &&& 2 ^ p - 1 = v % 2 ^ p := Nat.and_pow_two_sub_one_eq_mod v p
  have hq : (v - v % 2 ^ p) >>> p = v / 2 ^ p := by
    rw [Nat.shiftRight_eq_div_pow, sub_mod_two_pow]
    exact Nat.mul_div_cancel_left _ (Nat.two_pow_pos p)
  have hbits : riceEncodeCode p v ++ rest =
      List.replicate (v / 2 ^ p) true ++ false :: (bitsOfWidth p (v % 2 ^ p) ++ rest) := by
    unfold riceEncodeCode
    rw [hrem, hq, List.append_assoc, List.cons_append]
  rw [hbits]
  rw [Golomb.readU64_eq_of p _ (v / 2 ^ p, bitsOfWidth p (v % 2 ^ p) ++ rest)
    (0 * 2 ^ p + v % 2 ^ p % 2 ^ p, rest)
    (readUnary_replicate _ _) (readBitsAcc_bitsOfWidth p 0 (v % 2 ^ p) rest)]
  have hqlt : v / 2 ^ p < U64SIZE := Nat.lt_of_le_of_lt (Nat.div_le_self v _) hv
  have h1 : v / 2 ^ p % U64SIZE = v / 2 ^ p := Nat.mod_eq_of_lt hqlt
  have h2 : (v / 2 ^ p) <<< p = 2 ^ p * (v / 2 ^ p) := by
    rw [Nat.shiftLeft_eq]; ring
  have h3 : 2 ^ p * (v / 2 ^ p) ≤ v := by
    have h := Nat.div_add_mod v (2 ^ p)
    omega
  have h4 : 2 ^ p * (v / 2 ^ p) % U64SIZE = 2 ^ p * (v / 2 ^ p) :=
    Nat.mod_eq_of_lt (Nat.lt_of_le_of_lt h3 hv)
  have h5 : v % 2 ^ p % 2 ^ p = v % 2 ^ p := Nat.mod_mod_of_dvd v dvd_rfl
  have h6 : 2 ^ p * (v / 2 ^ p) ||| v % 2 ^ p = v := by
    rw [← Nat.mul_add_lt_is_or (Nat.mod_lt v (Nat.two_pow_pos p)) (v / 2 ^ p)]
    exact Nat.div_add_mod v (2 ^ p)
  rw [h1, h2, h4]
  simp only [Nat.zero_mul, Nat.zero_add, h5, h6]

/-! ### Unfolding lemmas for the matching loops -/

theorem Golomb.matchGo_not_lt {p term last : Nat} {bits : List Bool}
    (h : ¬ last < term) : Golomb.matchGo p term last bits = false := by
  rw [Golomb.matchGo]
  simp [h]

theorem Golomb.matchGo_none {p term last : Nat} {bits : List Bool}
    (h : Golomb.readU64 p bits = none) : Golomb.matchGo p term last bits = false := by
  rw [Golomb.matchGo, h]
  simp

theorem Golomb.matchGo_some {p term last : Nat} {bits : List Bool} {vr : Nat × List Bool}
    (h : Golomb.readU64 p bits = some vr) :
    Golomb.matchGo p term last bits =
      if last < term then
        (if (vr.1 + last) % U64SIZE = term then true
         else Golomb.matchGo p term ((vr.1 + last) % U64SIZE) vr.2)
      else false := by
  rw [Golomb.matchGo, h]

theorem Golomb.decodeCums_none {p last : Nat} {bits : List Bool}
    (h : Golomb.readU64 p bits = none) : Golomb.decodeCums p last bits = [] := by
  rw [Golomb.decodeCums, h]

theorem Golomb.decodeCums_some {p last : Nat} {bits : List Bool} {vr : Nat × List Bool}
    (h : Golomb.readU64 p bits = some vr) :
    Golomb.decodeCums p last bits =
      ((vr.1 + last) % U64SIZE) :: Golomb.decodeCums p ((vr.1 + last) % U64SIZE) vr.2 := by
  rw [Golomb.decodeCums, h]

theorem Golomb.matchAnyGo_eq {p last1 last2 : Nat} {rest : List Nat} {bits : List Bool}
    (h : last1 = last2) : Golomb.matchAnyGo p last1 last2 rest bits = true := by
  rw [Golomb.matchAnyGo.eq_def]
  simp [h]

theorem Golomb.matchAnyGo_gt_cons {p last1 last2 x : Nat} {rs : List Nat} {bits : List Bool}
    (h1 : last2 < last1) :
    Golomb.matchAnyGo p last1 last2 (x :: rs) bits = Golomb.matchAnyGo p last1 x rs bits := by
  rw [Golomb.matchAnyGo.eq_def]
  have h2 : ¬ last1 = last2 := by omega
  simp [h1, h2]

theorem Golomb.matchAnyGo_gt_nil {p last1 last2 : Nat} {bits : List Bool}
    (h1 : last2 < last1) : Golomb.matchAnyGo p last1 last2 [] bits = false := by
  rw [Golomb.matchAnyGo.eq_def]
  have h2 : ¬ last1 = last2 := by omega
  simp [h1, h2]

theorem Golomb.matchAnyGo_lt_none {p last1 last2 : Nat} {rest : List Nat} {bits : List Bool}
    (h1 : last1 < last2) (h : Golomb.readU64 p bits = none) :
    Golomb.matchAnyGo p last1 last2 rest bits = false := by
  rw [Golomb.matchAnyGo.eq_def]
  have h2 : ¬ last1 = last2 := by omega
  have h3 : ¬ last2 < last1 := by omega
  simp only [if_neg h2, if_neg h3]
  split
  · rfl
  · rename_i vr hvr
    rw [h] at hvr
    cases hvr

theorem Golomb.matchAnyGo_lt_some {p last1 last2 : Nat} {rest : List Nat} {bits : List Bool}
    {vr : Nat × List Bool} (h1 : last1 < last2) (h : Golomb.readU64 p bits = some vr) :
    Golomb.matchAnyGo p last1 last2 rest bits =
      Golomb.matchAnyGo p ((last1 + vr.1) % U64SIZE) last2 rest vr.2 := by
  rw [Golomb.matchAnyGo.eq_def]
  have h2 : ¬ last1 = last2 := by omega
  have h3 : ¬ last2 < last1 := by omega
  simp only [if_neg h2, if_neg h3]
  split
  · rename_i hvr
    rw [h] at hvr
    cases hvr
  · rename_i vr2 hvr
    rw [h] at hvr
    cases hvr
    rfl

/-! ### The code encoder agrees with the spec-worded encoder -/

theorem riceEncodeCode_eq_spec (p d : Nat) : riceEncodeCode p d = riceEncodeSpec p d := by
  unfold riceEncodeCode riceEncodeSpec
  rw [Nat.and_pow_two_sub_one_eq_mod]
  congr 1
  · rw [Nat.shiftRight_eq_div_pow, Nat.shiftRight_eq_div_pow, sub_mod_two_pow]
    rw [Nat.mul_div_cancel_left _ (Nat.two_pow_pos p)]
  · rw [bitsOfWidth_mod p p d (Nat.le_refl p)]

theorem sipmod64_lt {sip : List Nat → List Nat → Nat} {d k : List Nat} {m : Nat}
    (hm : 0 < m) : sipmod64 sip d k m < m := by
  unfold sipmod64
  rw [Nat.div_lt_iff_lt_mul U64SIZE_pos]
  calc sip d k % U64SIZE * m < U64SIZE * m :=
        Nat.mul_lt_mul_of_pos_right (Nat.mod_lt _ U64SIZE_pos) hm
    _ = m * U64SIZE := Nat.mul_comm _ _

theorem sipmod64_lt_u64 {sip : List Nat → List Nat → Nat} {d k : List Nat} {m : Nat}
    (hm : m ≤ U64SIZE) : sipmod64 sip d k m < U64SIZE := by
  unfold sipmod64
  rw [Nat.div_lt_iff_lt_mul U64SIZE_pos]
  calc sip d k % U64SIZE * m ≤ sip d k % U64SIZE * U64SIZE :=
        Nat.mul_le_mul_left _ hm
    _ < U64SIZE * U64SIZE := Nat.mul_lt_mul_of_pos_right (Nat.mod_lt _ U64SIZE_pos) U64SIZE_pos

theorem encodeDeltasCode_eq_spec :
    ∀ (vs : List Nat) (p prev : Nat), List.Sorted (· ≤ ·) vs →
      (∀ x ∈ vs, x < U64SIZE) → (∀ x ∈ vs, prev ≤ x) →
      encodeDeltasCode p prev vs = golombSpecBits p prev vs := by
  intro vs
  induction vs with
  | nil => intro p prev _ _ _; rfl
  | cons h rest ih =>
    intro p prev hs hb hp
    simp only [encodeDeltasCode, golombSpecBits]
    rw [u64sub_eq (hp h (List.mem_cons_self h rest)) (hb h (List.mem_cons_self h rest))]
    rw [riceEncodeCode_eq_spec]
    congr 1
    exact ih p h ((List.sorted_cons.mp hs).2) (fun x hx => hb x (List.mem_cons_of_mem h hx))
      (fun x hx => (List.sorted_cons.mp hs).1 x hx)

/-! ### Soundness of the matching loop on an encoded stream -/

theorem Golomb.matchGo_sound :
    ∀ (vs : List Nat) (p term last : Nat) (tail : List Bool),
      List.Sorted (· ≤ ·) vs → (∀ v ∈ vs, v < U64SIZE) → (∀ v ∈ vs, last ≤ v) →
      term ∈ vs → last < term →
      Golomb.matchGo p term last (encodeDeltasCode p last vs ++ tail) = true := by
  intro vs
  induction vs with
  | nil => intro p term last tail _ _ _ hmem _; cases hmem
  | cons v rest ih =>
    intro p term last tail hs hb hge hmem hlt
    have hvlt : v < U64SIZE := hb v (List.mem_cons_self v rest)
    have hvge : last ≤ v := hge v (List.mem_cons_self v rest)
    have hsub : u64sub v last = v - last := u64sub_eq hvge hvlt
    have hdelta : v - last < U64SIZE := Nat.lt_of_le_of_lt (Nat.sub_le v last) hvlt
    have henc : encodeDeltasCode p last (v :: rest) ++ tail =
        riceEncodeCode p (u64sub v last) ++ (encodeDeltasCode p v rest ++ tail) := by
      simp [encodeDeltasCode, List.append_assoc]
    rw [henc, hsub]
    have hread := readU64_riceEncodeCode p (v - last) (encodeDeltasCode p v rest ++ tail) hdelta
    rw [Golomb.matchGo_some hread, if_pos hlt]
    have hsum : (v - last + last) % U64SIZE = v := by
      rw [Nat.sub_add_cancel hvge]
      exact Nat.mod_eq_of_lt hvlt
    rw [hsum]
    by_cases hveq : v = term
    · rw [if_pos hveq]
    · rw [if_neg hveq]
      have hterm : term ∈ rest := by
        cases List.mem_cons.mp hmem with
        | inl h => exact absurd h.symm hveq
        | inr h => exact h
      have hvle : v ≤ term := (List.sorted_cons.mp hs).1 term hterm
      exact ih p term v tail (List.sorted_cons.mp hs).2
        (fun x hx => hb x (List.mem_cons_of_mem v hx))
        (fun x hx => (List.sorted_cons.mp hs).1 x hx)
        hterm (by omega)

/-! ### Characterizing the matching loops by the decoded cumulative stream -/

theorem streamHit_not_lt {term last : Nat} {cums : List Nat} (h : ¬ last < term) :
    streamHit term last cums = false := by
  cases cums with
  | nil => rfl
  | cons c cs => simp [streamHit, h]

theorem localHit_gt {t last : Nat} {cums : List Nat} (h : t < last) :
    localHit t last cums = false := by
  have h1 : ¬ last = t := by omega
  have h2 : ¬ last < t := by omega
  simp [localHit, h1, h2]

theorem localHit_cons {t last c : Nat} {cs : List Nat} (h : last < t) :
    localHit t last (c :: cs) = localHit t c cs := by
  have h1 : ¬ last = t := by omega
  unfold localHit
  rw [if_neg h1, if_pos h]
  by_cases hc : c = t
  · simp [streamHit, h, hc]
  · rw [if_neg hc]
    by_cases hlt : c < t
    · simp [streamHit, h, hc, if_pos hlt]
    · rw [if_neg hlt]
      simp only [streamHit, if_pos h, if_neg hc]
      exact streamHit_not_lt hlt

theorem any_congr_mem {α : Type} (l : List α) (f g : α → Bool)
    (h : ∀ x ∈ l, f x = g x) : l.any f = l.any g := by
  induction l with
  | nil => rfl
  | cons x xs ih =>
    simp only [List.any_cons]
    rw [h x (List.mem_cons_self x xs), ih (fun y hy => h y (List.mem_cons_of_mem x hy))]

theorem Golomb.matchGo_eq_streamHit_aux (p : Nat) :
    ∀ (n : Nat) (bits : List Bool), bits.length ≤ n → ∀ (term last : Nat),
      Golomb.matchGo p term last bits =
        streamHit term last (Golomb.decodeCums p last bits) := by
  intro n
  induction n using Nat.strong_induction_on with
  | _ n ih =>
    intro bits hb term last
    by_cases hlt : last < term
    · cases hr : Golomb.readU64 p bits with
      | none =>
        rw [Golomb.matchGo_none hr, Golomb.decodeCums_none hr]
        rfl
      | some vr =>
        rw [Golomb.matchGo_some hr, if_pos hlt, Golomb.decodeCums_some hr]
        simp only [streamHit, if_pos hlt]
        by_cases heq : (vr.1 + last) % U64SIZE = term
        · rw [if_pos heq, if_pos heq]
        · rw [if_neg heq, if_neg heq]
          exact ih vr.2.length (Nat.lt_of_lt_of_le (Golomb.readU64_length hr) hb)
            vr.2 (Nat.le_refl _) term _
    · rw [Golomb.matchGo_not_lt hlt, streamHit_not_lt hlt]

theorem Golomb.matchGo_eq_streamHit (p term last : Nat) (bits : List Bool) :
    Golomb.matchGo p term last bits =
      streamHit term last (Golomb.decodeCums p last bits) :=
  Golomb.matchGo_eq_streamHit_aux p bits.length bits (Nat.le_refl _) term last

theorem Golomb.matchAnyGo_spec_aux (p : Nat) :
    ∀ (k : Nat) (bits : List Bool) (rest : List Nat) (last1 last2 : Nat),
      bits.length + rest.length ≤ k →
      List.Sorted (· ≤ ·) (last2 :: rest) →
      Golomb.matchAnyGo p last1 last2 rest bits =
        (last2 :: rest).any
          (fun t => localHit t last1 (Golomb.decodeCums p last1 bits)) := by
  intro k
  induction k using Nat.strong_induction_on with
  | _ k ih =>
    intro bits rest last1 last2 hk hs
    rcases Nat.lt_trichotomy last1 last2 with hlt | heq | hgt
    · -- last1 < last2: the loop reads from the stream
      cases hr : Golomb.readU64 p bits with
      | none =>
        rw [Golomb.matchAnyGo_lt_none hlt hr, Golomb.decodeCums_none hr]
        symm
        rw [List.any_eq_false]
        intro t ht
        have hle : last2 ≤ t := by
          cases List.mem_cons.mp ht with
          | inl h => omega
          | inr h => exact (List.sorted_cons.mp hs).1 t h
        have h1 : ¬ last1 = t := by omega
        have h2 : last1 < t := by omega
        simp [localHit, h1, h2, streamHit]
      | some vr =>
        rw [Golomb.matchAnyGo_lt_some hlt hr, Golomb.decodeCums_some hr]
        have hc : (vr.1 + last1) % U64SIZE = (last1 + vr.1) % U64SIZE := by
          rw [Nat.add_comm]
        rw [hc]
        rw [ih (vr.2.length + rest.length)
          (by have := Golomb.readU64_length hr; omega)
          vr.2 rest ((last1 + vr.1) % U64SIZE) last2 (Nat.le_refl _) hs]
        apply any_congr_mem
        intro t ht
        have hle : last2 ≤ t := by
          cases List.mem_cons.mp ht with
          | inl h => omega
          | inr h => exact (List.sorted_cons.mp hs).1 t h
        exact (localHit_cons (by omega)).symm
    · -- last1 = last2: immediate success
      rw [Golomb.matchAnyGo_eq heq]
      symm
      rw [List.any_eq_true]
      exact ⟨last2, List.mem_cons_self last2 rest, by simp [localHit, heq]⟩
    · -- last2 < last1: advance the target cursor
      have hfalse : localHit last2 last1 (Golomb.decodeCums p last1 bits) = false :=
        localHit_gt hgt
      cases rest with
      | nil =>
        rw [Golomb.matchAnyGo_gt_nil hgt]
        simp [List.any_cons, hfalse]
      | cons x rs =>
        rw [Golomb.matchAnyGo_gt_cons hgt]
        rw [ih (bits.length + rs.length) (by simp at hk; omega) bits rs last1 x
          (Nat.le_refl _) (List.sorted_cons.mp hs).2]
        simp [List.any_cons, hfalse]

/-! ### Characterization of successful fromItems -/

theorem Golomb.fromItems_eq (sip : List Nat → List Nat → Nat) (P : Nat) (key : List Nat)
    (items : List (List Nat)) (hP : P ≤ 32) (hk : key.length = 16)
    (hn : (bufferSet items).length ≤ 4294967295) :
    Golomb.fromItems sip P key items = some
      { n := (bufferSet items).length
        p := P
        m := 784931 * (bufferSet items).length % U64SIZE
        data := packBits (encodeDeltasCode P 0 (List.insertionSort (· ≤ ·)
          ((bufferSet items).map (fun it =>
            sipmod64 sip it key (784931 * (bufferSet items).length % U64SIZE))))) } := by
  unfold Golomb.fromItems
  rw [if_pos ⟨hP, hk, hn⟩]

theorem Golomb.fromItems_inv (sip : List Nat → List Nat → Nat) (P : Nat) (key : List Nat)
    (items : List (List Nat)) (g : Golomb)
    (h : Golomb.fromItems sip P key items = some g) :
    P ≤ 32 ∧ key.length = 16 ∧ (bufferSet items).length ≤ 4294967295 ∧
    g = { n := (bufferSet items).length
          p := P
          m := 784931 * (bufferSet items).length % U64SIZE
          data := packBits (encodeDeltasCode P 0 (List.insertionSort (· ≤ ·)
            ((bufferSet items).map (fun it =>
              sipmod64 sip it key (784931 * (bufferSet items).length % U64SIZE))))) } := by
  unfold Golomb.fromItems at h
  split at h
  · rename_i hcond
    simp only [Option.some.injEq] at h
    exact ⟨hcond.1, hcond.2.1, hcond.2.2, h.symm⟩
  · cases h

/-- Sorted list of the reduced hashes of a deduplicated item set under
modulus m, as computed inside fromItems and matchAny. -/
def sortedHashes (sip : List Nat → List Nat → Nat) (key : List Nat) (m : Nat)
    (items : List (List Nat)) : List Nat :=
  List.insertionSort (· ≤ ·) ((bufferSet items).map (fun it => sipmod64 sip it key m))

theorem sortedHashes_sorted (sip : List Nat → List Nat → Nat) (key : List Nat) (m : Nat)
    (items : List (List Nat)) : List.Sorted (· ≤ ·) (sortedHashes sip key m items) :=
  List.sorted_insertionSort _ _

theorem mem_sortedHashes {sip : List Nat → List Nat → Nat} {key : List Nat} {m : Nat}
    {items : List (List Nat)} {v : Nat} :
    v ∈ sortedHashes sip key m items ↔
      ∃ it ∈ items, sipmod64 sip it key m = v := by
  unfold sortedHashes
  rw [List.Perm.mem_iff (List.perm_insertionSort _ _)]
  simp only [List.mem_map]
  constructor
  · rintro ⟨it, hit, rfl⟩
    exact ⟨it, mem_bufferSet.mp hit, rfl⟩
  · rintro ⟨it, hit, rfl⟩
    exact ⟨it, mem_bufferSet.mpr hit, rfl⟩

theorem sortedHashes_bounded {sip : List Nat → List Nat → Nat} {key : List Nat} {m : Nat}
    {items : List (List Nat)} (hm : m ≤ U64SIZE) :
    ∀ v ∈ sortedHashes sip key m items, v < U64SIZE := by
  intro v hv
  obtain ⟨it, _, rfl⟩ := mem_sortedHashes.mp hv
  exact sipmod64_lt_u64 hm

/-! ### Claim C1 -/

/-- C1 (amended): membership soundness up to the zero-hash edge case.  For
every valid P in [0,32], 16-byte key, and item set, every item used to build
the filter via fromItems whose reduced hash under the filter modulus is
nonzero is reported present by match under the same key.  (An item whose
reduced hash is 0 is missed, because the loop condition last < term of
Golomb.match never admits term = 0; see the counterexample.) -/
theorem c1_membership_soundness (sip : List Nat → List Nat → Nat) (P : Nat)
    (key item : List Nat) (items : List (List Nat))
    (hP : P ≤ 32) (hk : key.length = 16)
    (hsize : (bufferSet items).length ≤ 4294967295)
    (hmem : item ∈ items)
    (hnz : sipmod64 sip item key (784931 * (bufferSet items).length % U64SIZE) ≠ 0) :
    (Golomb.fromItems sip P key items).map
      (fun g => Golomb.matches sip g key item) = some true := by
  rw [Golomb.fromItems_eq sip P key items hP hk hsize, Option.map_some']
  congr 1
  show Golomb.matchGo P
    (sipmod64 sip item key (784931 * (bufferSet items).length % U64SIZE)) 0
    (bitsOfBytes (packBits (encodeDeltasCode P 0
      (sortedHashes sip key (784931 * (bufferSet items).length % U64SIZE) items)))) = true
  rw [bitsOfBytes_packBits]
  apply Golomb.matchGo_sound
  · exact sortedHashes_sorted sip key _ items
  · exact sortedHashes_bounded (Nat.le_of_lt (Nat.mod_lt _ U64SIZE_pos))
  · intro v _
    exact Nat.zero_le v
  · exact mem_sortedHashes.mpr ⟨item, hmem, rfl⟩
  · exact Nat.pos_of_ne_zero hnz

/-- Witness for c1_membership_soundness at a concrete input: the raw hash
2^64 - 1 reduces the single item [97] to 784930, which is nonzero, and the
built filter reports it present. -/
theorem c1_membership_soundness_witness :
    (Golomb.fromItems sipTop 32 key16 [[97]]).map
      (fun g => Golomb.matches sipTop g key16 [97]) = some true :=
  c1_membership_soundness sipTop 32 key16 [97] [[97]] (by decide) (by decide)
    (by decide) (by decide) (by decide)

/-- Counterexample to C1 as stated: with a raw hash function that returns 0,
the item [97] is used to build the filter, its reduced hash is 0, and match
reports it absent — a false negative, contradicting the claim that the query
never returns a false negative. -/
theorem c1_counterexample :
    [97] ∈ [[97]] ∧
    (Golomb.fromItems sip0 0 key16 [[97]]).map
      (fun g => Golomb.matches sip0 g key16 [97]) = some false := by
  refine ⟨by decide, ?_⟩
  rw [Golomb.fromItems_eq sip0 0 key16 [[97]] (by decide) (by decide) (by decide),
    Option.map_some']
  congr 1
  show Golomb.matchGo 0
    (sipmod64 sip0 [97] key16 (784931 * (bufferSet [[97]]).length % U64SIZE)) 0
    (bitsOfBytes (packBits (encodeDeltasCode 0 0
      (sortedHashes sip0 key16 (784931 * (bufferSet [[97]]).length % U64SIZE) [[97]])))) =
    false
  have h0 : sipmod64 sip0 [97] key16 (784931 * (bufferSet [[97]]).length % U64SIZE) = 0 := by
    decide
  rw [h0]
  exact Golomb.matchGo_not_lt (by omega)

/-! ### Claim C2 -/

theorem any_perm {α : Type} {l1 l2 : List α} (h : l1.Perm l2) (f : α → Bool) :
    l1.any f = l2.any f := by
  rw [Bool.eq_iff_iff]
  simp only [List.any_eq_true]
  constructor
  · rintro ⟨x, hx, hfx⟩
    exact ⟨x, h.mem_iff.mp hx, hfx⟩
  · rintro ⟨x, hx, hfx⟩
    exact ⟨x, h.mem_iff.mpr hx, hfx⟩

theorem any_bufferSet (l : List (List Nat)) (f : List Nat → Bool) :
    (bufferSet l).any f = l.any f := by
  rw [Bool.eq_iff_iff]
  simp only [List.any_eq_true]
  constructor
  · rintro ⟨x, hx, hfx⟩
    exact ⟨x, mem_bufferSet.mp hx, hfx⟩
  · rintro ⟨x, hx, hfx⟩
    exact ⟨x, mem_bufferSet.mpr hx, hfx⟩

theorem any_map_general {α β : Type} (l : List α) (f : α → β) (p : β → Bool) :
    (l.map f).any p = l.any (fun x => p (f x)) := by
  induction l with
  | nil => rfl
  | cons x xs ih => simp [List.any_cons, ih]

theorem localHit_of_ne_zero {t : Nat} {cums : List Nat} (h : t ≠ 0) :
    localHit t 0 cums = streamHit t 0 cums := by
  have h1 : ¬ (0 : Nat) = t := fun hc => h hc.symm
  have h2 : 0 < t := Nat.pos_of_ne_zero h
  simp [localHit, h1, h2]

/-- C2 (amended): batch/single agreement whenever no target reduces to hash
0.  For every filter, key, and non-empty target set in which no target's
reduced hash under the filter modulus is 0, matchAny returns some of the OR
over the targets of match.  (If some target reduces to 0, matchAny returns
true immediately — the initial running value equals the smallest sorted
hash — while match can never return true for a zero hash; see the
counterexample.) -/
theorem c2_batch_single_agreement (sip : List Nat → List Nat → Nat) (g : Golomb)
    (key : List Nat) (targets : List (List Nat)) (hne : targets ≠ [])
    (hnz : ∀ t ∈ targets, sipmod64 sip t key g.m ≠ 0) :
    Golomb.matchAny sip g key targets =
      some (targets.any (fun t => Golomb.matches sip g key t)) := by
  obtain ⟨t0, ts0, rfl⟩ := List.exists_cons_of_ne_nil hne
  show (match sortedHashes sip key g.m (t0 :: ts0) with
    | [] => none
    | v :: vs => some (Golomb.matchAnyGo g.p 0 v vs (bitsOfBytes g.data))) = _
  have hlen : sortedHashes sip key g.m (t0 :: ts0) ≠ [] := by
    intro hcon
    have h1 : t0 ∈ bufferSet (t0 :: ts0) := mem_bufferSet.mpr (List.mem_cons_self t0 ts0)
    have h2 : (sortedHashes sip key g.m (t0 :: ts0)).length = 0 := by rw [hcon]; rfl
    unfold sortedHashes at h2
    rw [List.length_insertionSort, List.length_map] at h2
    exact absurd h2 (Nat.ne_of_gt (List.length_pos_of_mem h1))
  cases hs : sortedHashes sip key g.m (t0 :: ts0) with
  | nil => exact absurd hs hlen
  | cons v vs =>
    have hsorted : List.Sorted (· ≤ ·) (v :: vs) := by
      rw [← hs]
      exact sortedHashes_sorted sip key g.m (t0 :: ts0)
    show some (Golomb.matchAnyGo g.p 0 v vs (bitsOfBytes g.data)) =
      some ((t0 :: ts0).any fun t => Golomb.matches sip g key t)
    rw [Golomb.matchAnyGo_spec_aux g.p ((bitsOfBytes g.data).length + vs.length)
      (bitsOfBytes g.data) vs 0 v (Nat.le_refl _) hsorted]
    congr 1
    have h1 : (v :: vs).any
        (fun t => localHit t 0 (Golomb.decodeCums g.p 0 (bitsOfBytes g.data))) =
        (sortedHashes sip key g.m (t0 :: ts0)).any
        (fun t => localHit t 0 (Golomb.decodeCums g.p 0 (bitsOfBytes g.data))) := by
      rw [hs]
    rw [h1]
    unfold sortedHashes
    rw [any_perm (List.perm_insertionSort _ _), any_map_general, any_bufferSet]
    apply any_congr_mem
    intro t ht
    show localHit (sipmod64 sip t key g.m) 0 (Golomb.decodeCums g.p 0 (bitsOfBytes g.data)) =
      Golomb.matches sip g key t
    rw [localHit_of_ne_zero (hnz t ht)]
    rw [Golomb.matches, Golomb.matchGo_eq_streamHit]

/-- Witness for c2_batch_single_agreement at a concrete input: an arbitrary
filter value, the raw hash 2^64 - 1 (every reduced hash is 784930, nonzero),
and a single target; both sides are false (empty data decodes to nothing). -/
theorem c2_batch_single_agreement_witness :
    Golomb.matchAny sipTop { n := 0, p := 0, m := 784931, data := [] } key16 [[97]] =
      some ([[97]].any
        (fun t => Golomb.matches sipTop { n := 0, p := 0, m := 784931, data := [] } key16 t)) :=
  c2_batch_single_agreement sipTop { n := 0, p := 0, m := 784931, data := [] } key16 [[97]]
    (by decide) (by decide)

/-- Counterexample to C2 as stated: with a raw hash that reduces the target
[98] to 0, matchAny on the filter built from [[97]] returns true although
match returns false on every element of the same target set — matchAny is
not the OR of match over the targets. -/
theorem c2_counterexample :
    (Golomb.fromItems sip0 0 key16 [[97]]).map (fun g =>
      (Golomb.matchAny sip0 g key16 [[98]],
       [[98]].any (fun t => Golomb.matches sip0 g key16 t))) = some (some true, false) := by
  rw [Golomb.fromItems_eq sip0 0 key16 [[97]] (by decide) (by decide) (by decide),
    Option.map_some']
  congr 1
  refine Prod.ext ?_ ?_
  · show Golomb.matchAny sip0
      { n := (bufferSet [[97]]).length
        p := 0
        m := 784931 * (bufferSet [[97]]).length % U64SIZE
        data := packBits (encodeDeltasCode 0 0 (List.insertionSort (· ≤ ·)
          ((bufferSet [[97]]).map (fun it =>
            sipmod64 sip0 it key16 (784931 * (bufferSet [[97]]).length % U64SIZE))))) }
      key16 [[98]] = some true
    have hred : Golomb.matchAny sip0
        { n := (bufferSet [[97]]).length
          p := 0
          m := 784931 * (bufferSet [[97]]).length % U64SIZE
          data := packBits (encodeDeltasCode 0 0 (List.insertionSort (· ≤ ·)
            ((bufferSet [[97]]).map (fun it =>
              sipmod64 sip0 it key16 (784931 * (bufferSet [[97]]).length % U64SIZE))))) }
        key16 [[98]] =
        some (Golomb.matchAnyGo 0 0 0 []
          (bitsOfBytes (packBits (encodeDeltasCode 0 0 (List.insertionSort (· ≤ ·)
            ((bufferSet [[97]]).map (fun it =>
              sipmod64 sip0 it key16 (784931 * (bufferSet [[97]]).length % U64SIZE)))))))) :=
      rfl
    rw [hred, Golomb.matchAnyGo_eq rfl]
  · show ([[98]].any (fun t => Golomb.matches sip0
      { n := (bufferSet [[97]]).length
        p := 0
        m := 784931 * (bufferSet [[97]]).length % U64SIZE
        data := packBits (encodeDeltasCode 0 0 (List.insertionSort (· ≤ ·)
          ((bufferSet [[97]]).map (fun it =>
            sipmod64 sip0 it key16 (784931 * (bufferSet [[97]]).length % U64SIZE))))) }
      key16 t)) = false
    simp only [List.any_cons, List.any_nil, Bool.or_false]
    have h0 : sipmod64 sip0 [98] key16 (784931 * (bufferSet [[97]]).length % U64SIZE) = 0 := by
      decide
    show Golomb.matchGo 0
      (sipmod64 sip0 [98] key16 (784931 * (bufferSet [[97]]).length % U64SIZE)) 0 _ = false
    rw [h0]
    exact Golomb.matchGo_not_lt (by omega)

/-! ### Claim C4 -/

theorem sorted_replicate_zero (k : Nat) : List.Sorted (· ≤ ·) (List.replicate k 0) := by
  induction k with
  | zero => simp
  | succ k ih =>
    rw [List.replicate_succ, List.sorted_cons]
    exact ⟨fun b hb => by simp [List.eq_of_mem_replicate hb], ih⟩

theorem Golomb.matches_m_zero (sip : List Nat → List Nat → Nat) (g : Golomb)
    (key target : List Nat) (hm : g.m = 0) : Golomb.matches sip g key target = false := by
  unfold Golomb.matches
  have hz : sipmod64 sip target key g.m = 0 := by simp [sipmod64, hm]
  rw [hz]
  exact Golomb.matchGo_not_lt (by omega)

theorem Golomb.matchAny_m_zero (sip : List Nat → List Nat → Nat) (g : Golomb)
    (key t : List Nat) (ts : List (List Nat)) (hm : g.m = 0) :
    Golomb.matchAny sip g key (t :: ts) = some true := by
  have hz : ∀ x : List Nat, sipmod64 sip x key g.m = 0 := by
    intro x
    simp [sipmod64, hm]
  show (match List.insertionSort (· ≤ ·)
      ((bufferSet (t :: ts)).map (fun x => sipmod64 sip x key g.m)) with
    | [] => none
    | v :: vs => some (Golomb.matchAnyGo g.p 0 v vs (bitsOfBytes g.data))) = some true
  have hmap : (bufferSet (t :: ts)).map (fun x => sipmod64 sip x key g.m) =
      List.replicate (bufferSet (t :: ts)).length 0 := by
    rw [show (fun x : List Nat => sipmod64 sip x key g.m) =
      (fun _ : List Nat => (0 : Nat)) from funext hz]
    exact List.map_const' _ 0
  rw [hmap]
  have hsort : List.insertionSort (· ≤ ·)
      (List.replicate (bufferSet (t :: ts)).length 0) =
      List.replicate (bufferSet (t :: ts)).length 0 :=
    List.eq_of_perm_of_sorted (List.perm_insertionSort _ _)
      (List.sorted_insertionSort _ _) (sorted_replicate_zero _)
  rw [hsort]
  have hpos : 0 < (bufferSet (t :: ts)).length :=
    List.length_pos_of_mem (mem_bufferSet.mpr (List.mem_cons_self t ts))
  cases hk : (bufferSet (t :: ts)).length with
  | zero => omega
  | succ k =>
    rw [List.replicate_succ]
    show some (Golomb.matchAnyGo g.p 0 0 (List.replicate k 0) (bitsOfBytes g.data)) =
      some true
    rw [Golomb.matchAnyGo_eq rfl]

/-- C4: the filter built from the empty item set has N = 0, and match
returns false for every target against it whatever the data buffer holds —
but matchAny, contrary to the claim and to the spec, returns some true for
every non-empty target set, because the modulus 0 reduces every target hash
to 0, which immediately equals the initial running value.  This theorem
evaluates the code at the failing input of the code_bug verdict. -/
theorem c4_empty_filter_queries (sip : List Nat → List Nat → Nat) (P : Nat)
    (key target t : List Nat) (ts : List (List Nat)) (d : List Nat)
    (hP : P ≤ 32) (hk : key.length = 16) :
    (Golomb.fromItems sip P key []).map (fun g =>
      (g.n, Golomb.matches sip { g with data := d } key target,
       Golomb.matchAny sip g key (t :: ts))) = some (0, false, some true) := by
  rw [Golomb.fromItems_eq sip P key [] hP hk (by decide), Option.map_some']
  congr 1
  refine Prod.ext rfl (Prod.ext ?_ ?_)
  · refine Golomb.matches_m_zero sip _ key target ?_
    show (784931 * (bufferSet ([] : List (List Nat))).length % U64SIZE) = 0
    decide
  · refine Golomb.matchAny_m_zero sip _ key t ts ?_
    show (784931 * (bufferSet ([] : List (List Nat))).length % U64SIZE) = 0
    decide

/-- Witness for c4_empty_filter_queries at a concrete input. -/
theorem c4_empty_filter_queries_witness :
    (Golomb.fromItems sip0 19 key16 []).map (fun g =>
      (g.n, Golomb.matches sip0 { g with data := [] } key16 [97],
       Golomb.matchAny sip0 g key16 [[97]])) = some (0, false, some true) :=
  c4_empty_filter_queries sip0 19 key16 [97] [97] [] [] (by decide) (by decide)

/-! ### Claim C7 -/

theorem readBitsAcc_none_iff :
    ∀ (w acc : Nat) (bits : List Bool), readBitsAcc acc w bits = none ↔ bits.length < w := by
  intro w
  induction w with
  | zero => intro acc bits; simp [readBitsAcc]
  | succ w ih =>
    intro acc bits
    cases bits with
    | nil => simp [readBitsAcc]
    | cons b r =>
      simp only [readBitsAcc, List.length_cons]
      rw [ih]
      omega

theorem Golomb.readU64_none_iff :
    ∀ (bits : List Bool) (p : Nat),
      Golomb.readU64 p bits = none ↔ bits.length < leadingOnes bits + 1 + p := by
  intro bits
  induction bits with
  | nil => intro p; simp [Golomb.readU64, readUnary, leadingOnes]
  | cons b r ih =>
    intro p
    cases b with
    | false =>
      have hiff : (Golomb.readU64 p (false :: r) = none) ↔ (readBitsAcc 0 p r = none) := by
        cases hb : readBitsAcc 0 p r with
        | none => simp [Golomb.readU64, readUnary, hb]
        | some rr => simp [Golomb.readU64, readUnary, hb]
      rw [hiff, readBitsAcc_none_iff]
      rw [show leadingOnes (false :: r) = 0 from rfl, List.length_cons]
      omega
    | true =>
      have hiff : (Golomb.readU64 p (true :: r) = none) ↔ (Golomb.readU64 p r = none) := by
        cases hu : readUnary r with
        | none =>
          have ht : readUnary (true :: r) = none := by simp [readUnary, hu]
          simp [Golomb.readU64, ht, hu]
        | some qr =>
          have ht : readUnary (true :: r) = some (qr.1 + 1, qr.2) := by
            simp [readUnary, hu]
          cases hb : readBitsAcc 0 p qr.2 with
          | none => simp [Golomb.readU64, ht, hu, hb]
          | some rr => simp [Golomb.readU64, ht, hu, hb]
      rw [hiff, ih p]
      rw [show leadingOnes (true :: r) = leadingOnes r + 1 from rfl, List.length_cons]
      omega

/-- C7: end-of-stream is a sentinel, not a fault.  readU64 returns the
distinguished end-of-stream value none exactly when the stream is too short
to hold the unary run, its terminator and the p remainder bits (including
exhaustion mid-unary-run, where the whole stream is 1 bits); and whenever a
read inside the match loop or the matchAny merge loop (which reads only in
its last1 < last2 state) hits end-of-stream, the loop returns false. -/
theorem c7_eof_sentinel (p term last last1 last2 : Nat) (rest : List Nat)
    (bits : List Bool) :
    (Golomb.readU64 p bits = none ↔ bits.length < leadingOnes bits + 1 + p) ∧
    (Golomb.readU64 p bits = none → Golomb.matchGo p term last bits = false) ∧
    (Golomb.readU64 p bits = none → last1 < last2 →
      Golomb.matchAnyGo p last1 last2 rest bits = false) := by
  refine ⟨Golomb.readU64_none_iff bits p, ?_, ?_⟩
  · intro h
    by_cases hlt : last < term
    · exact Golomb.matchGo_none h
    · exact Golomb.matchGo_not_lt hlt
  · intro h hlt
    exact Golomb.matchAnyGo_lt_none hlt h

/-- Witness for c7_eof_sentinel at a concrete input: a stream holding a
single 1 bit exhausts mid-unary-run. -/
theorem c7_eof_sentinel_witness :
    (Golomb.readU64 2 [true] = none) ∧
    (Golomb.matchGo 2 5 0 [true] = false) ∧
    (Golomb.matchAnyGo 2 0 5 [] [true] = false) := by
  have h := c7_eof_sentinel 2 5 0 0 5 [] [true]
  have hnone : Golomb.readU64 2 [true] = none := h.1.mpr (by decide)
  exact ⟨hnone, h.2.1 hnone, h.2.2 hnone (by decide)⟩

/-! ### Claim C8 -/

/-- C8: invalid-parameter rejection.  fromItems returns none (no partially
built filter exists) whenever P lies outside [0,32], the key is not exactly
16 bytes, or the deduplicated item set holds more than 2^32 - 1 items; and
matchAny applied to the empty target set returns none (the assertion on the
target-set size) rather than a boolean. -/
theorem c8_invalid_rejection (sip : List Nat → List Nat → Nat) (P : Nat)
    (key : List Nat) (items : List (List Nat)) (g : Golomb) (key2 : List Nat) :
    ((32 < P ∨ key.length ≠ 16 ∨ 4294967295 < (bufferSet items).length) →
      Golomb.fromItems sip P key items = none) ∧
    Golomb.matchAny sip g key2 [] = none := by
  constructor
  · intro h
    unfold Golomb.fromItems
    rw [if_neg]
    intro hcond
    rcases h with h | h | h
    · exact absurd hcond.1 (by omega)
    · exact h hcond.2.1
    · exact absurd hcond.2.2 (by omega)
  · rfl

/-- Witness for c8_invalid_rejection at a concrete input: P = 33 is
rejected, and the empty target set yields none. -/
theorem c8_invalid_rejection_witness :
    Golomb.fromItems sip0 33 key16 [[97]] = none ∧
    Golomb.matchAny sip0 { n := 0, p := 0, m := 0, data := [] } key16 [] = none :=
  ⟨(c8_invalid_rejection sip0 33 key16 [[97]]
      { n := 0, p := 0, m := 0, data := [] } key16).1 (Or.inl (by decide)),
   (c8_invalid_rejection sip0 33 key16 [[97]]
      { n := 0, p := 0, m := 0, data := [] } key16).2⟩

/-! ### Claim C6 -/

/-- C6: Rice codec inverse.  For every P in [0,32] and every 64-bit value v,
encoding v as v >>> P one-bits, a terminating zero bit, and the low P bits
of v (riceEncodeSpec, the encoding the spec describes and the one the
fromItems loop emits), then decoding with readU64 (count one-bits to a zero,
read P remainder bits, recombine by shift and or) reconstructs exactly v and
leaves the rest of the stream untouched. -/
theorem c6_rice_codec_inverse (p v : Nat) (rest : List Bool)
    (hp : p ≤ 32) (hv : v < U64SIZE) :
    Golomb.readU64 p (riceEncodeSpec p v ++ rest) = some (v, rest) := by
  rw [← riceEncodeCode_eq_spec]
  exact readU64_riceEncodeCode p v rest hv

/-- Witness for c6_rice_codec_inverse at a concrete input. -/
theorem c6_rice_codec_inverse_witness :
    Golomb.readU64 19 (riceEncodeSpec 19 784930 ++ []) = some (784930, []) :=
  c6_rice_codec_inverse 19 784930 [] (by decide) (by decide)

/-! ### Claim C3 -/

/-- C3 (amended): serialization round-trips of a built filter.  The
P-prefixed layout (toPBytes/fromPBytes, with N supplied out of band) and the
NP-prefixed layout (toNPBytes/fromNPBytes) reproduce the same logical
filter for every built filter; the varint-N layouts (toNBytes/fromNBytes
and the canonical P = 19 toRaw/fromRaw) reproduce it whenever N < 253, the
one-byte varint range.  (For N at or above 253 fromNBytes strips a single
byte after reading a varint of three or more bytes, so the data buffer
comes back with varint tail bytes prepended; see the counterexample.) -/
theorem c3_serialization_roundtrip (sip : List Nat → List Nat → Nat) (P : Nat)
    (key : List Nat) (items : List (List Nat)) (g : Golomb)
    (h : Golomb.fromItems sip P key items = some g) :
    Golomb.fromPBytes g.n (Golomb.toPBytes g) = some g ∧
    Golomb.fromNPBytes (Golomb.toNPBytes g) = some g ∧
    (g.n < 253 → Golomb.fromNBytes g.p (Golomb.toNBytes g) = some g) ∧
    (g.p = 19 → g.n < 253 → (Golomb.toRaw g).bind Golomb.fromRaw = some g) := by
  obtain ⟨hP, hk, hsize, hg⟩ := Golomb.fromItems_inv sip P key items g h
  have hp : g.p = P := by rw [hg]
  have hn : g.n = (bufferSet items).length := by rw [hg]
  have hmraw : g.m = 784931 * (bufferSet items).length % U64SIZE := by rw [hg]
  have hm2 : g.m = 784931 * g.n % U64SIZE := by rw [hmraw, hn]
  have hple : g.p ≤ 32 := by rw [hp]; exact hP
  have hnle : g.n ≤ 4294967295 := by rw [hn]; exact hsize
  have hback : Golomb.fromBytes g.n g.p g.data = some g := by
    unfold Golomb.fromBytes
    rw [if_pos hple, ← hm2]
  have hc : g.n < 253 → Golomb.fromNBytes g.p (Golomb.toNBytes g) = some g := by
    intro h253
    have hw : writeVarint g.n = [g.n] := by
      unfold writeVarint
      rw [if_pos h253]
    show (readVarint (Golomb.toNBytes g)).bind
      (fun N => Golomb.fromBytes N g.p ((Golomb.toNBytes g).drop 1)) = some g
    rw [Golomb.toNBytes, hw]
    have hrv : readVarint (g.n :: g.data) = some g.n := by
      have h255 : ¬ g.n = 255 := by omega
      have h254 : ¬ g.n = 254 := by omega
      have h253x : ¬ g.n = 253 := by omega
      simp only [readVarint, if_neg h255, if_neg h254, if_neg h253x]
    show (readVarint (g.n :: g.data)).bind
      (fun N => Golomb.fromBytes N g.p ((g.n :: g.data).drop 1)) = some g
    rw [hrv]
    exact hback
  refine ⟨?_, ?_, hc, ?_⟩
  · show Golomb.fromBytes g.n g.p g.data = some g
    exact hback
  · show Golomb.fromBytes
      (16777216 * (g.n / 16777216 % 256) + 65536 * (g.n / 65536 % 256) +
        256 * (g.n / 256 % 256) + g.n % 256) g.p g.data = some g
    have hN : 16777216 * (g.n / 16777216 % 256) + 65536 * (g.n / 65536 % 256) +
        256 * (g.n / 256 % 256) + g.n % 256 = g.n := by omega
    rw [hN]
    exact hback
  · intro h19 h253
    unfold Golomb.toRaw
    rw [if_pos h19]
    show Golomb.fromNBytes 19 (Golomb.toNBytes g) = some g
    rw [← h19]
    exact hc h253

/-- Witness for c3_serialization_roundtrip: the filter built from three
single-byte items under the all-zero raw hash with P = 19 round-trips
through all four layouts. -/
theorem c3_serialization_roundtrip_witness :
    Golomb.fromPBytes 3
      (Golomb.toPBytes { n := 3, p := 19, m := 2354793, data := List.replicate 8 0 }) =
      some { n := 3, p := 19, m := 2354793, data := List.replicate 8 0 } ∧
    Golomb.fromNPBytes
      (Golomb.toNPBytes { n := 3, p := 19, m := 2354793, data := List.replicate 8 0 }) =
      some { n := 3, p := 19, m := 2354793, data := List.replicate 8 0 } ∧
    Golomb.fromNBytes 19
      (Golomb.toNBytes { n := 3, p := 19, m := 2354793, data := List.replicate 8 0 }) =
      some { n := 3, p := 19, m := 2354793, data := List.replicate 8 0 } ∧
    (Golomb.toRaw { n := 3, p := 19, m := 2354793, data := List.replicate 8 0 }).bind
      Golomb.fromRaw =
      some { n := 3, p := 19, m := 2354793, data := List.replicate 8 0 } := by
  have h := c3_serialization_roundtrip sip0 19 key16 [[1], [2], [3]]
    { n := 3, p := 19, m := 2354793, data := List.replicate 8 0 } (by decide)
  exact ⟨h.1, h.2.1, h.2.2.1 (by decide), h.2.2.2 rfl (by decide)⟩

set_option maxRecDepth 10000 in
/-- Counterexample to C3 as stated: a filter built from 253 distinct
single-byte items serializes with a three-byte varint (0xfd 0xfd 0x00), but
fromNBytes drops only one byte, so deserializing the varint-N serialization
does not reproduce the filter. -/
theorem c3_counterexample :
    (Golomb.fromItems sip0 0 key16 ((List.range 253).map (fun i => [i]))).bind
      (fun g => (Golomb.fromNBytes g.p (Golomb.toNBytes g)).map
        (fun g2 => decide (g2 = g))) = some false := by
  decide

/-! ### Claim C5 -/

/-- C5: the build pipeline.  For every valid P, 16-byte key and item set,
fromItems yields a filter whose item count n is the number of distinct
items, whose modulus m is exactly 784931 times n (no 64-bit wrap is
possible: n is at most 2^32 - 1), whose per-item reduced hashes lie in
[0, m), and whose data buffer is the rendered bit stream of the Rice codes,
with parameter P, of the successive differences of the ascending-sorted
hash values — the encoder the spec words as golombSpecBits. -/
theorem c5_build_pipeline (sip : List Nat → List Nat → Nat) (P : Nat)
    (key : List Nat) (items : List (List Nat)) (g : Golomb)
    (h : Golomb.fromItems sip P key items = some g) :
    g.n = (bufferSet items).length ∧
    g.p = P ∧
    g.m = 784931 * g.n ∧
    (∀ it ∈ items, sipmod64 sip it key g.m < g.m) ∧
    List.Sorted (· ≤ ·) (sortedHashes sip key g.m items) ∧
    g.data = packBits (golombSpecBits g.p 0 (sortedHashes sip key g.m items)) := by
  obtain ⟨hP, hk, hsize, hg⟩ := Golomb.fromItems_inv sip P key items g h
  have hn : g.n = (bufferSet items).length := by rw [hg]
  have hp : g.p = P := by rw [hg]
  have hmraw : g.m = 784931 * (bufferSet items).length % U64SIZE := by rw [hg]
  have hnov : 784931 * (bufferSet items).length < U64SIZE := by
    rw [U64SIZE_eq]
    calc 784931 * (bufferSet items).length ≤ 784931 * 4294967295 :=
          Nat.mul_le_mul_left _ hsize
      _ < 18446744073709551616 := by norm_num
  have hm : g.m = 784931 * g.n := by
    rw [hmraw, hn, Nat.mod_eq_of_lt hnov]
  have hmex : g.m = 784931 * (bufferSet items).length % U64SIZE := hmraw
  refine ⟨hn, hp, hm, ?_, sortedHashes_sorted sip key g.m items, ?_⟩
  · intro it hit
    have hpos : 0 < g.m := by
      rw [hm, hn]
      exact Nat.mul_pos (by norm_num)
        (List.length_pos_of_mem (mem_bufferSet.mpr hit))
    exact sipmod64_lt hpos
  · rw [show g.data = packBits (encodeDeltasCode P 0 (sortedHashes sip key
      (784931 * (bufferSet items).length % U64SIZE) items)) from by rw [hg]; rfl]
    rw [← hmex, hp]
    congr 1
    exact encodeDeltasCode_eq_spec _ P 0 (sortedHashes_sorted sip key g.m items)
      (sortedHashes_bounded (by rw [hmex]; exact Nat.le_of_lt (Nat.mod_lt _ U64SIZE_pos)))
      (fun x _ => Nat.zero_le x)

/-- Witness for c5_build_pipeline at a concrete input. -/
theorem c5_build_pipeline_witness :
    ({ n := 3, p := 19, m := 2354793, data := List.replicate 8 0 } : Golomb).n =
      (bufferSet [[1], [2], [3]]).length ∧
    ({ n := 3, p := 19, m := 2354793, data := List.replicate 8 0 } : Golomb).m =
      784931 * ({ n := 3, p := 19, m := 2354793, data := List.replicate 8 0 } : Golomb).n ∧
    sipmod64 sip0 [1] key16 2354793 < 2354793 ∧
    ({ n := 3, p := 19, m := 2354793, data := List.replicate 8 0 } : Golomb).data =
      packBits (golombSpecBits 19 0 (sortedHashes sip0 key16 2354793 [[1], [2], [3]])) := by
  have h := c5_build_pipeline sip0 19 key16 [[1], [2], [3]]
    { n := 3, p := 19, m := 2354793, data := List.replicate 8 0 } (by decide)
  exact ⟨h.1, h.2.2.1, h.2.2.2.1 [1] (by decide), h.2.2.2.2.2⟩

/-! ### Claim C9 -/

/-- C9: content hash and header chaining.  hash is the double-SHA256
(abstract parameter dsha) of the varint-N serialization; header(prev) is the
double-SHA256 of hash followed by prev; both are functions of their inputs
(deterministic); and, whenever dsha is collision-free (injective — the
idealization of DoubleSHA256), the header changes whenever the serialized
filter content or prev changes. -/
theorem c9_hash_header (dsha : List Nat → List Nat) (g g2 : Golomb)
    (prev prev2 : List Nat) (hinj : Function.Injective dsha) :
    Golomb.hash dsha g = dsha (Golomb.toNBytes g) ∧
    Golomb.header dsha g prev = dsha (Golomb.hash dsha g ++ prev) ∧
    (Golomb.toNBytes g ≠ Golomb.toNBytes g2 →
      Golomb.header dsha g prev ≠ Golomb.header dsha g2 prev) ∧
    (prev ≠ prev2 → Golomb.header dsha g prev ≠ Golomb.header dsha g prev2) := by
  refine ⟨rfl, rfl, ?_, ?_⟩
  · intro hne hcon
    apply hne
    have h1 : Golomb.hash dsha g ++ prev = Golomb.hash dsha g2 ++ prev := hinj hcon
    exact hinj (List.append_cancel_right h1)
  · intro hne hcon
    exact hne (List.append_cancel_left (hinj hcon))

/-- Witness for c9_hash_header at a concrete input (dsha instantiated with
the injective identity function). -/
theorem c9_hash_header_witness :
    Golomb.hash id { n := 0, p := 0, m := 0, data := [] } =
      id (Golomb.toNBytes { n := 0, p := 0, m := 0, data := [] }) ∧
    Golomb.header id { n := 0, p := 0, m := 0, data := [] } [5] =
      id (Golomb.hash id { n := 0, p := 0, m := 0, data := [] } ++ [5]) ∧
    Golomb.header id { n := 0, p := 0, m := 0, data := [] } [5] ≠
      Golomb.header id { n := 1, p := 0, m := 0, data := [] } [5] ∧
    Golomb.header id { n := 0, p := 0, m := 0, data := [] } [5] ≠
      Golomb.header id { n := 0, p := 0, m := 0, data := [] } [6] := by
  have h := c9_hash_header id { n := 0, p := 0, m := 0, data := [] }
    { n := 1, p := 0, m := 0, data := [] } [5] [6] Function.injective_id
  exact ⟨h.1, h.2.1, h.2.2.1 (by decide), h.2.2.2 (by decide)⟩

/-! ### Claim C10 -/

/-- C10: build deduplicates its input.  fromItems on any input collection
equals fromItems on the collection with duplicate byte strings removed (its
own BufferSet), and on success the resulting item count n is the number of
distinct byte strings supplied, not the number of entries. -/
theorem c10_build_dedup (sip : List Nat → List Nat → Nat) (P : Nat)
    (key : List Nat) (items : List (List Nat)) :
    Golomb.fromItems sip P key items = Golomb.fromItems sip P key (bufferSet items) ∧
    (∀ g, Golomb.fromItems sip P key items = some g → g.n = items.toFinset.card) := by
  constructor
  · unfold Golomb.fromItems
    rw [bufferSet_idem]
  · intro g h
    obtain ⟨_, _, _, hg⟩ := Golomb.fromItems_inv sip P key items g h
    have hn : g.n = (bufferSet items).length := by rw [hg]
    rw [hn, bufferSet_length]

/-- Witness for c10_build_dedup at a concrete input: a duplicated item is
counted once. -/
theorem c10_build_dedup_witness :
    (Golomb.fromItems sip0 0 key16 [[97], [97]] =
      Golomb.fromItems sip0 0 key16 (bufferSet [[97], [97]])) ∧
    ({ n := 1, p := 0, m := 784931, data := [0] } : Golomb).n =
      [[97], [97]].toFinset.card := by
  refine ⟨(c10_build_dedup sip0 0 key16 [[97], [97]]).1, ?_⟩
  exact (c10_build_dedup sip0 0 key16 [[97], [97]]).2
    { n := 1, p := 0, m := 784931, data := [0] } (by decide)
